import Mathlib

/-!
Verification of the fioconfig secure-synchronization engine.

Shallow embedding of the agent code (package internal): the snapshot
differ and materializer (extract, updateSecret, safeWrite), the PKCS11
numeric-id decoder (idToBytes) and the sync protocol (checkin).

The filesystem is modelled as an association list from full path to
file content and permission mode. An atomic write (write the sibling
temporary path, then rename over the target) is modelled by its net
effect on that map, including the deferred removal of the temporary
path; write, rename and remove failures are injected through boolean
oracles so that error paths of the code are represented. The path join
of the secrets directory with a file name is modelled as string
concatenation with a slash, as the bundle file names are plain names.

Side effects that leave the filesystem (running a change-hook process)
are recorded as events; the hook event records each call of the
runOnChanged helper, which spawns a process exactly when the recorded
command list is nonempty. Bundle decoding and HTTP-date parsing are
external to the two source files and are taken as parameters of
checkin, so every theorem about checkin holds for all decoders and
date parsers.
-/

namespace Fioconfig

/-- Permission mode passed to WriteFile by safeWrite: octal 640
(owner read/write, group read, no access for others). -/
def secretFileMode : Nat := 0o640

/-- Filesystem model: list of (full path, content, permission mode),
read through the first entry whose path matches. -/
abbrev FS := List (String × String × Nat)

/-- Look up the content and mode stored at a path. -/
def fsFind (fs : FS) (p : String) : Option (String × Nat) :=
  (fs.find? (fun e => e.1 == p)).map Prod.snd

/-- Look up only the content stored at a path (ioutil.ReadFile). -/
def fsRead (fs : FS) (p : String) : Option String :=
  (fsFind fs p).map Prod.fst

/-- Delete every entry at a path (os.Remove, also the rename source). -/
def fsErase (fs : FS) (p : String) : FS :=
  fs.filter (fun e => e.1 != p)

/-- Store content and mode at a path, replacing what was there. -/
def fsWrite (fs : FS) (p c : String) (m : Nat) : FS :=
  (p, c, m) :: fsErase fs p

/-- filepath.Join of the secrets directory and a bundle file name. -/
def pathJoin (dir fname : String) : String := dir ++ "/" ++ fname

/-- Numeric identifier decoding from the source: each character of the
id has the byte value of the zero digit subtracted (byte arithmetic,
modulo 256), and the result is sliced from the first nonzero byte.
When every byte is zero the slice index stays -1 and the Go code
panics with a slice-bounds error; that outcome is modelled as none. -/
def idToBytes (id : String) : Option (List Nat) :=
  let bs := id.data.map (fun c => (c.toNat + 208) % 256)
  match bs.findIdx? (fun b => b != 0) with
  | some start => some (bs.drop start)
  | none => none

/-- One entry of a decoded bundle: decrypted value and optional
change-hook command (empty list when absent). -/
structure ConfigFile where
  Value : String
  OnChanged : List String
deriving DecidableEq, Repr

/-- A decoded bundle: file names mapped to entries. The Go map is
modelled as an association list; map keys are unique, which theorems
state as a Nodup hypothesis on the key list. -/
abbrev ConfigStruct := List (String × ConfigFile)

/-- The pair of snapshots handed to extract; prev is none when no
previous bundle could be loaded. -/
structure configSnapshot where
  prev : Option ConfigStruct
  next : ConfigStruct

/-- Observable side effects of a materializer run: a completed atomic
rewrite of a target path, a call of runOnChanged (which spawns the
recorded command when it is nonempty), and a completed os.Remove of an
existing file. -/
inductive Event where
  | write : String → String → Event
  | hook : String → String → List String → Event
  | remove : String → Event
deriving DecidableEq, Repr

/-- Result of a materializer run: final filesystem, the side effects
that happened, and the error if it aborted. -/
structure ExtractRes where
  fs : FS
  evs : List Event
  err : Option String
deriving DecidableEq, Repr

/-- safeWrite from the source: write the content to the sibling path
suffixed .tmp with mode 0640, rename it over the target, with a
deferred removal of the temporary path on every exit. The wOk and rOk
oracles inject WriteFile and Rename failures. On every path the
temporary path is gone when the function returns. -/
def safeWrite (wOk rOk : Bool) (fs : FS) (secretFile newContent : String) :
    FS × Option String :=
  let tmp := secretFile ++ ".tmp"
  if wOk then
    let fs1 := fsWrite fs tmp newContent secretFileMode
    if rOk then
      (fsWrite (fsErase fs1 tmp) secretFile newContent secretFileMode, none)
    else
      (fsErase fs1 tmp, some ("Unable to update secret: " ++ secretFile))
  else
    (fsErase fs tmp, some ("Unable to create " ++ tmp))

/-- updateSecret from the source: read the current content; when the
read succeeds and the content equals the new content do nothing and
report unchanged, otherwise report changed and do a safeWrite. -/
def updateSecret (wOk rOk : Bool) (fs : FS) (secretFile newContent : String) :
    Bool × FS × Option String :=
  if fsRead fs secretFile = some newContent then
    (false, fs, none)
  else
    let r := safeWrite wOk rOk fs secretFile newContent
    (true, r.1, r.2)

/-- The write/update phase of extract: for every entry of next, join
the secrets directory with the file name, updateSecret, abort on
error, and when the content changed record the write and the
runOnChanged call. -/
def extractNext (dir : String) (wOk rOk : String → Bool) (fs : FS) :
    ConfigStruct → ExtractRes
  | [] => ⟨fs, [], none⟩
  | (fname, cfgFile) :: rest =>
    let fullpath := pathJoin dir fname
    let u := updateSecret (wOk fullpath) (rOk fullpath) fs fullpath cfgFile.Value
    match u.2.2 with
    | some e => ⟨u.2.1, [], some e⟩
    | none =>
      let evs := if u.1 then
          [Event.write fullpath cfgFile.Value,
           Event.hook fname fullpath cfgFile.OnChanged]
        else []
      let r := extractNext dir wOk rOk u.2.1 rest
      ⟨r.fs, evs ++ r.evs, r.err⟩

/-- The removal phase of extract: for every entry of prev whose name
was not seen in the write phase, os.Remove the joined path (an
already-absent file is tolerated, any other failure, injected by the
remOk oracle, aborts) and then record the runOnChanged call. -/
def extractPrev (dir : String) (remOk : String → Bool) (allF : List String)
    (fs : FS) : ConfigStruct → ExtractRes
  | [] => ⟨fs, [], none⟩
  | (fname, cfgFile) :: rest =>
    if fname ∈ allF then
      extractPrev dir remOk allF fs rest
    else
      let fullpath := pathJoin dir fname
      if (fsRead fs fullpath).isSome then
        if remOk fullpath then
          let r := extractPrev dir remOk allF (fsErase fs fullpath) rest
          ⟨r.fs, Event.remove fullpath :: Event.hook fname fullpath cfgFile.OnChanged :: r.evs,
            r.err⟩
        else
          ⟨fs, [], some ("Unable to remove " ++ fullpath)⟩
      else
        let r := extractPrev dir remOk allF fs rest
        ⟨r.fs, Event.hook fname fullpath cfgFile.OnChanged :: r.evs, r.err⟩

/-- extract from the source: fail when the secrets directory is
missing, run the write/update phase over next, and only after it
finished run the removal phase over prev (skipped when prev is nil),
with the seen-name set equal to the key set of next. -/
def extract (dir : String) (dirExists : Bool) (wOk rOk remOk : String → Bool)
    (fs : FS) (config : configSnapshot) : ExtractRes :=
  if dirExists then
    let rn := extractNext dir wOk rOk fs config.next
    if rn.err.isSome then rn
    else
      match config.prev with
      | none => rn
      | some prevL =>
        let rp := extractPrev dir remOk (config.next.map Prod.fst) rn.fs prevL
        ⟨rp.fs, rn.evs ++ rp.evs, rp.err⟩
  else ⟨fs, [], some ("stat " ++ dir ++ ": no such file or directory")⟩

/-- The HTTP response the sync protocol reacts to: status code, body
text and the optional Date header. -/
structure HttpResponse where
  status : Nat
  body : String
  date : Option String
deriving DecidableEq, Repr

/-- State owned by checkin: the secrets directory contents and the
persisted encrypted bundle file (content and modification time), none
when that file does not exist. -/
structure CheckinState where
  secrets : FS
  bundle : Option (String × Nat)
deriving DecidableEq, Repr

/-- Errors checkin can return, by shape: the NotModifiedError
sentinel, the other-status error carrying status code and body text,
a bundle decode failure, and a filesystem failure. -/
inductive CheckinError where
  | notModified : CheckinError
  | network : Nat → String → CheckinError
  | decodeErr : String → CheckinError
  | ioErr : String → CheckinError
deriving DecidableEq, Repr

/-- Result of one checkin: final state, materializer events, error. -/
structure CheckinRes where
  state : CheckinState
  evs : List Event
  err : Option CheckinError
deriving DecidableEq, Repr

/-- Loading the previous snapshot inside the 200 branch: when the
persisted bundle file does not exist prev is absent, otherwise it is
decoded without decrypting; a decode failure propagates. -/
def checkinDecodePrev (decodePrevNames : String → Except String ConfigStruct)
    (bundle : Option (String × Nat)) : Except String (Option ConfigStruct) :=
  match bundle with
  | none => Except.ok none
  | some (content, _) => (decodePrevNames content).map some

/-- checkin from the source, for a received response. On 200: decode
the body with decryption as next, load prev from the persisted bundle
file, extract, then persist the body verbatim over the bundle file by
the atomic-write discipline and set its modification time to the
parsed Date header, defaulting to the local time now when parsing
fails. On 304 and on 204 return the NotModifiedError sentinel without
touching anything; on any other status return the error carrying the
status code and body. The decoders, the date parser, the local clock
and the filesystem-failure oracles are parameters. -/
def checkin (dir : String) (dirExists : Bool) (wOk rOk remOk : String → Bool)
    (bundleWOk chtimesOk : Bool)
    (decodeNext decodePrevNames : String → Except String ConfigStruct)
    (parseDate : String → Option Nat) (now : Nat)
    (st : CheckinState) (res : HttpResponse) : CheckinRes :=
  if res.status = 200 then
    match decodeNext res.body with
    | Except.error e => ⟨st, [], some (CheckinError.decodeErr e)⟩
    | Except.ok next =>
      match checkinDecodePrev decodePrevNames st.bundle with
      | Except.error e => ⟨st, [], some (CheckinError.decodeErr e)⟩
      | Except.ok prevO =>
        let r := extract dir dirExists wOk rOk remOk st.secrets ⟨prevO, next⟩
        match r.err with
        | some e => ⟨⟨r.fs, st.bundle⟩, r.evs, some (CheckinError.ioErr e)⟩
        | none =>
          if bundleWOk then
            let modtime := match parseDate (res.date.getD "") with
              | some t => t
              | none => now
            if chtimesOk then
              ⟨⟨r.fs, some (res.body, modtime)⟩, r.evs, none⟩
            else
              ⟨⟨r.fs, some (res.body, now)⟩, r.evs,
                some (CheckinError.ioErr ("Unable to set modified time " ++ dir))⟩
          else
            ⟨⟨r.fs, st.bundle⟩, r.evs,
              some (CheckinError.ioErr "Unable to update secret: bundle")⟩
  else if res.status = 304 then
    ⟨st, [], some CheckinError.notModified⟩
  else if res.status = 204 then
    ⟨st, [], some CheckinError.notModified⟩
  else
    ⟨st, [], some (CheckinError.network res.status res.body)⟩

/-- Number of completed writes to a given path among the events. -/
def countWrites (evs : List Event) (p : String) : Nat :=
  evs.countP (fun e => match e with
    | Event.write q _ => q == p
    | _ => false)

/-- Number of runOnChanged calls for a given file name. -/
def countHooks (evs : List Event) (f : String) : Nat :=
  evs.countP (fun e => match e with
    | Event.hook g _ _ => g == f
    | _ => false)

theorem fsFind_cons (e : String × String × Nat) (fs : FS) (q : String) :
    fsFind (e :: fs) q = if e.1 = q then some e.2 else fsFind fs q := by
  by_cases h : e.1 = q <;> simp [fsFind, List.find?_cons, h]

theorem fsErase_cons (e : String × String × Nat) (fs : FS) (p : String) :
    fsErase (e :: fs) p = if e.1 = p then fsErase fs p else e :: fsErase fs p := by
  by_cases h : e.1 = p <;> simp [fsErase, List.filter_cons, h]

theorem fsFind_write_self (fs : FS) (p c : String) (m : Nat) :
    fsFind (fsWrite fs p c m) p = some (c, m) := by
  rw [fsWrite, fsFind_cons]
  simp

theorem fsFind_erase_ne (fs : FS) (p q : String) (h : q ≠ p) :
    fsFind (fsErase fs p) q = fsFind fs q := by
  induction fs with
  | nil => rfl
  | cons e fs ih =>
    rw [fsErase_cons]
    by_cases h1 : e.1 = p
    · rw [if_pos h1, fsFind_cons, if_neg (by rw [h1]; exact fun hq => h hq.symm)]
      exact ih
    · rw [if_neg h1, fsFind_cons, fsFind_cons]
      by_cases h2 : e.1 = q
      · rw [if_pos h2, if_pos h2]
      · rw [if_neg h2, if_neg h2]; exact ih

theorem fsFind_erase_self (fs : FS) (p : String) :
    fsFind (fsErase fs p) p = none := by
  induction fs with
  | nil => rfl
  | cons e fs ih =>
    rw [fsErase_cons]
    by_cases h1 : e.1 = p
    · rw [if_pos h1]; exact ih
    · rw [if_neg h1, fsFind_cons, if_neg h1]; exact ih

theorem fsFind_write_ne (fs : FS) (p q c : String) (m : Nat) (h : q ≠ p) :
    fsFind (fsWrite fs p c m) q = fsFind fs q := by
  rw [fsWrite, fsFind_cons, if_neg (fun hq => h hq.symm)]
  exact fsFind_erase_ne fs p q h

theorem fsRead_eq_none_iff (fs : FS) (p : String) :
    fsRead fs p = none ↔ fsFind fs p = none := by
  simp [fsRead]

theorem fsErase_write_self (fs : FS) (p c : String) (m : Nat) :
    fsErase (fsWrite fs p c m) p = fsErase fs p := by
  simp only [fsWrite, fsErase, List.filter]
  simp [List.filter_filter]

theorem safeWrite_ok (fs : FS) (sf c : String) :
    safeWrite true true fs sf c =
      (fsWrite (fsErase fs (sf ++ ".tmp")) sf c secretFileMode, none) := by
  simp [safeWrite, fsErase_write_self]

theorem safeWrite_frame (w r : Bool) (fs : FS) (sf c q : String)
    (h1 : q ≠ sf) (h2 : q ≠ sf ++ ".tmp") :
    fsFind (safeWrite w r fs sf c).1 q = fsFind fs q := by
  cases w with
  | false =>
    simp only [safeWrite, Bool.false_eq_true, if_false]
    exact fsFind_erase_ne fs _ q h2
  | true =>
    cases r with
    | false =>
      simp only [safeWrite, if_true]
      rw [if_neg (by simp)]
      rw [fsFind_erase_ne _ _ _ h2, fsFind_write_ne _ _ _ _ _ h2]
    | true =>
      rw [safeWrite_ok]
      rw [fsFind_write_ne _ _ _ _ _ h1, fsFind_erase_ne _ _ _ h2]

theorem updateSecret_unchanged (w r : Bool) (fs : FS) (sf c : String)
    (h : fsRead fs sf = some c) :
    updateSecret w r fs sf c = (false, fs, none) := by
  simp [updateSecret, h]

theorem updateSecret_changed_ok (fs : FS) (sf c : String)
    (h : fsRead fs sf ≠ some c) :
    updateSecret true true fs sf c =
      (true, fsWrite (fsErase fs (sf ++ ".tmp")) sf c secretFileMode, none) := by
  simp [updateSecret, h, safeWrite_ok]

theorem updateSecret_ok_flags (w r : Bool) (fs : FS) (sf c : String)
    (h : fsRead fs sf ≠ some c)
    (hok : (updateSecret w r fs sf c).2.2 = none) :
    w = true ∧ r = true := by
  cases w <;> cases r <;> simp [updateSecret, h, safeWrite] at hok ⊢

theorem updateSecret_frame (w r : Bool) (fs : FS) (sf c q : String)
    (h1 : q ≠ sf) (h2 : q ≠ sf ++ ".tmp") :
    fsFind (updateSecret w r fs sf c).2.1 q = fsFind fs q := by
  by_cases h : fsRead fs sf = some c
  · rw [updateSecret_unchanged _ _ _ _ _ h]
  · simp only [updateSecret, if_neg h]
    exact safeWrite_frame w r fs sf c q h1 h2

theorem pathJoin_inj (dir f g : String) (h : pathJoin dir f = pathJoin dir g) :
    f = g := by
  have h2 := congrArg String.data h
  simp only [pathJoin, String.data_append] at h2
  exact String.ext (List.append_cancel_left h2)

theorem ne_tmp_self (p : String) : p ≠ p ++ ".tmp" := by
  intro h
  have h2 := congrArg String.length h
  have h4 : (".tmp" : String).length = 4 := rfl
  simp only [String.length_append] at h2
  omega

/-- C3: the numeric-identifier decoder maps "01" to the byte sequence
with the single value 1 and "10" to the two bytes 1, 0, as the claim
states; but on "00" (every digit zero) the slice start index of the
source stays -1 and the Go program panics with a slice-bounds error
(modelled as none) instead of returning the empty sequence the claim
demands. The claim states the intended behavior; the code is a slip on
all-zero identifiers. -/
theorem c3_idToBytes_bug :
    idToBytes "01" = some [1] ∧ idToBytes "10" = some [1, 0] ∧
    idToBytes "00" = none := by
  decide

/-- C9: a secret file materialized by a successful safeWrite is stored
with the constant mode 0640, whose others-permission bits (the low
three bits) are all zero: access is restricted to owner and group. -/
theorem c9_secret_file_mode (fs : FS) (p c : String) :
    fsFind (safeWrite true true fs p c).1 p = some (c, secretFileMode) ∧
    secretFileMode % 8 = 0 := by
  constructor
  · rw [safeWrite_ok]
    exact fsFind_write_self _ _ _ _
  · decide

/-- C10: after safeWrite returns, on success and on both failure paths
(WriteFile failure, Rename failure), the sibling temporary path
suffixed .tmp is not present on disk. -/
theorem c10_tmp_removed (wOk rOk : Bool) (fs : FS) (p c : String) :
    fsFind (safeWrite wOk rOk fs p c).1 (p ++ ".tmp") = none := by
  cases wOk with
  | false =>
    simp only [safeWrite, Bool.false_eq_true, if_false]
    exact fsFind_erase_self _ _
  | true =>
    cases rOk with
    | false =>
      simp only [safeWrite, if_true]
      rw [if_neg (by simp)]
      exact fsFind_erase_self _ _
    | true =>
      rw [safeWrite_ok]
      rw [fsFind_write_ne _ _ _ _ _ (Ne.symm (ne_tmp_self p))]
      exact fsFind_erase_self _ _

/-- C4: in the 200 branch of checkin, when bundle decoding fails or
the materialization aborts with an error, checkin returns an error and
the persisted encrypted-bundle file is unchanged; the bundle is only
overwritten after extract has succeeded. -/
theorem c4_bundle_only_after_extract (dir : String) (dirExists : Bool)
    (wOk rOk remOk : String → Bool) (bundleWOk chtimesOk : Bool)
    (decodeNext decodePrevNames : String → Except String ConfigStruct)
    (parseDate : String → Option Nat) (now : Nat)
    (st : CheckinState) (res : HttpResponse)
    (h200 : res.status = 200)
    (hfail : ∀ next prevO, decodeNext res.body = Except.ok next →
      checkinDecodePrev decodePrevNames st.bundle = Except.ok prevO →
      (extract dir dirExists wOk rOk remOk st.secrets ⟨prevO, next⟩).err ≠ none) :
    (checkin dir dirExists wOk rOk remOk bundleWOk chtimesOk decodeNext
        decodePrevNames parseDate now st res).err.isSome = true ∧
    (checkin dir dirExists wOk rOk remOk bundleWOk chtimesOk decodeNext
        decodePrevNames parseDate now st res).state.bundle = st.bundle := by
  simp only [checkin, h200, if_pos]
  cases hdn : decodeNext res.body with
  | error e => simp
  | ok next =>
    cases hdp : checkinDecodePrev decodePrevNames st.bundle with
    | error e => simp
    | ok prevO =>
      cases hex : (extract dir dirExists wOk rOk remOk st.secrets ⟨prevO, next⟩).err with
      | some e => simp [hex]
      | none => exact absurd hex (hfail next prevO hdn hdp)

/-- C4 witness: a 200 response whose body fails to decode leaves the
persisted bundle unchanged and returns an error. -/
theorem c4_bundle_only_after_extract_witness :
    ((HttpResponse.mk 200 "body" none).status = 200) ∧
    (checkin "s" true (fun _ => true) (fun _ => true) (fun _ => true) true true
        (fun _ => Except.error "bad") (fun _ => Except.ok []) (fun _ => none) 0
        ⟨[], some ("old", 5)⟩ ⟨200, "body", none⟩).err.isSome = true ∧
    (checkin "s" true (fun _ => true) (fun _ => true) (fun _ => true) true true
        (fun _ => Except.error "bad") (fun _ => Except.ok []) (fun _ => none) 0
        ⟨[], some ("old", 5)⟩ ⟨200, "body", none⟩).state.bundle =
      (⟨[], some ("old", 5)⟩ : CheckinState).bundle :=
  ⟨rfl, c4_bundle_only_after_extract "s" true (fun _ => true) (fun _ => true)
    (fun _ => true) true true (fun _ => Except.error "bad") (fun _ => Except.ok [])
    (fun _ => none) 0 ⟨[], some ("old", 5)⟩ ⟨200, "body", none⟩ rfl
    (fun _ _ h _ => Except.noConfusion h)⟩

/-- C5: after a successful 200 check-in, the persisted bundle holds
the response body and its modification time is the parsed Date header
when it parses, and the local time of acceptance when the header is
missing (the empty header value does not parse) or unparsable; a
parsed server timestamp is never replaced by a later local time. -/
theorem c5_bundle_mtime (dir : String) (dirExists : Bool)
    (wOk rOk remOk : String → Bool) (bundleWOk chtimesOk : Bool)
    (decodeNext decodePrevNames : String → Except String ConfigStruct)
    (parseDate : String → Option Nat) (now : Nat)
    (st : CheckinState) (res : HttpResponse)
    (h200 : res.status = 200) (hempty : parseDate "" = none)
    (hok : (checkin dir dirExists wOk rOk remOk bundleWOk chtimesOk decodeNext
        decodePrevNames parseDate now st res).err = none) :
    (checkin dir dirExists wOk rOk remOk bundleWOk chtimesOk decodeNext
        decodePrevNames parseDate now st res).state.bundle =
      some (res.body, match res.date with
        | some d => (parseDate d).getD now
        | none => now) := by
  simp only [checkin, h200, if_pos] at hok ⊢
  cases hdn : decodeNext res.body with
  | error e => simp [hdn] at hok
  | ok next =>
    simp only [hdn] at hok ⊢
    cases hdp : checkinDecodePrev decodePrevNames st.bundle with
    | error e => simp [hdp] at hok
    | ok prevO =>
      simp only [hdp] at hok ⊢
      cases hex : (extract dir dirExists wOk rOk remOk st.secrets ⟨prevO, next⟩).err with
      | some e => simp [hex] at hok
      | none =>
        simp only [hex] at hok ⊢
        cases bundleWOk with
        | false => simp at hok
        | true =>
          cases chtimesOk with
          | false => simp at hok
          | true =>
            simp only [if_true]
            cases hdate : res.date with
            | none => simp [hdate, hempty]
            | some d =>
              simp only [hdate, Option.getD_some]
              cases hpd : parseDate d with
              | none => simp [hpd]
              | some t => simp [hpd]

/-- C5 witness: a parsed Date header of 42 becomes the stored
modification time even though the local clock reads 7. -/
theorem c5_bundle_mtime_witness :
    (checkin "s" true (fun _ => true) (fun _ => true) (fun _ => true) true true
        (fun _ => Except.ok []) (fun _ => Except.ok [])
        (fun d => if d = "srv" then some 42 else none) 7
        ⟨[], none⟩ ⟨200, "body", some "srv"⟩).state.bundle =
      some ("body", 42) := by
  have h := c5_bundle_mtime "s" true (fun _ => true) (fun _ => true) (fun _ => true)
    true true (fun _ => Except.ok []) (fun _ => Except.ok [])
    (fun d => if d = "srv" then some 42 else none) 7
    ⟨[], none⟩ ⟨200, "body", some "srv"⟩ rfl (by decide) (by decide)
  simpa using h

/-- C7: a 304 response and a 204 response produce the identical
outcome: checkin returns the NotModifiedError sentinel, no events
happen, and the state (secrets directory and persisted bundle) is
untouched. -/
theorem c7_not_modified (dir : String) (dirExists : Bool)
    (wOk rOk remOk : String → Bool) (bundleWOk chtimesOk : Bool)
    (decodeNext decodePrevNames : String → Except String ConfigStruct)
    (parseDate : String → Option Nat) (now : Nat)
    (st : CheckinState) (res : HttpResponse)
    (h : res.status = 304 ∨ res.status = 204) :
    checkin dir dirExists wOk rOk remOk bundleWOk chtimesOk decodeNext
        decodePrevNames parseDate now st res =
      ⟨st, [], some CheckinError.notModified⟩ := by
  rcases h with h | h <;> simp [checkin, h]

/-- C7 witness: the 304 case at a concrete state. -/
theorem c7_not_modified_witness :
    checkin "s" true (fun _ => true) (fun _ => true) (fun _ => true) true true
        (fun _ => Except.ok []) (fun _ => Except.ok []) (fun _ => none) 3
        ⟨[("s/a", "x", 416)], some ("old", 5)⟩ ⟨304, "", none⟩ =
      ⟨⟨[("s/a", "x", 416)], some ("old", 5)⟩, [], some CheckinError.notModified⟩ :=
  c7_not_modified "s" true (fun _ => true) (fun _ => true) (fun _ => true) true true
    (fun _ => Except.ok []) (fun _ => Except.ok []) (fun _ => none) 3
    ⟨[("s/a", "x", 416)], some ("old", 5)⟩ ⟨304, "", none⟩ (Or.inl rfl)

/-- C8: on any status other than 200, 304 and 204, checkin returns the
error carrying that status code and the response body text, and the
state is untouched with no events. -/
theorem c8_other_status (dir : String) (dirExists : Bool)
    (wOk rOk remOk : String → Bool) (bundleWOk chtimesOk : Bool)
    (decodeNext decodePrevNames : String → Except String ConfigStruct)
    (parseDate : String → Option Nat) (now : Nat)
    (st : CheckinState) (res : HttpResponse)
    (h200 : res.status ≠ 200) (h304 : res.status ≠ 304) (h204 : res.status ≠ 204) :
    checkin dir dirExists wOk rOk remOk bundleWOk chtimesOk decodeNext
        decodePrevNames parseDate now st res =
      ⟨st, [], some (CheckinError.network res.status res.body)⟩ := by
  simp [checkin, h200, h304, h204]

/-- C8 witness: a 500 response with body "server error" yields the
error carrying status 500 and that message, with nothing mutated. -/
theorem c8_other_status_witness :
    checkin "s" true (fun _ => true) (fun _ => true) (fun _ => true) true true
        (fun _ => Except.ok []) (fun _ => Except.ok []) (fun _ => none) 3
        ⟨[("s/a", "x", 416)], some ("old", 5)⟩ ⟨500, "server error", none⟩ =
      ⟨⟨[("s/a", "x", 416)], some ("old", 5)⟩, [],
        some (CheckinError.network 500 "server error")⟩ :=
  c8_other_status "s" true (fun _ => true) (fun _ => true) (fun _ => true) true true
    (fun _ => Except.ok []) (fun _ => Except.ok []) (fun _ => none) 3
    ⟨[("s/a", "x", 416)], some ("old", 5)⟩ ⟨500, "server error", none⟩
    (by decide) (by decide) (by decide)

theorem extractNext_remove_not_mem (dir : String) (wOk rOk : String → Bool)
    (next : ConfigStruct) (fs : FS) (p : String) :
    Event.remove p ∉ (extractNext dir wOk rOk fs next).evs := by
  induction next generalizing fs with
  | nil => simp [extractNext]
  | cons hd tl ih =>
    obtain ⟨f, cf⟩ := hd
    simp only [extractNext]
    cases hu : (updateSecret (wOk (pathJoin dir f)) (rOk (pathJoin dir f)) fs
        (pathJoin dir f) cf.Value).2.2 with
    | some e => simp [hu]
    | none =>
      simp only [hu, List.mem_append]
      rintro (h | h)
      · cases hch : (updateSecret (wOk (pathJoin dir f)) (rOk (pathJoin dir f)) fs
            (pathJoin dir f) cf.Value).1 <;> simp [hch] at h
      · exact ih _ h

theorem extractNext_hook_mem (dir : String) (wOk rOk : String → Bool)
    (next : ConfigStruct) (fs : FS) (f p : String) (c : List String)
    (h : Event.hook f p c ∈ (extractNext dir wOk rOk fs next).evs) :
    f ∈ next.map Prod.fst := by
  induction next generalizing fs with
  | nil => simp [extractNext] at h
  | cons hd tl ih =>
    obtain ⟨g, cf⟩ := hd
    simp only [extractNext] at h
    cases hu : (updateSecret (wOk (pathJoin dir g)) (rOk (pathJoin dir g)) fs
        (pathJoin dir g) cf.Value).2.2 with
    | some e => simp [hu] at h
    | none =>
      simp only [hu, List.mem_append] at h
      rcases h with h | h
      · cases hch : (updateSecret (wOk (pathJoin dir g)) (rOk (pathJoin dir g)) fs
            (pathJoin dir g) cf.Value).1 <;> simp [hch] at h
        rcases h with ⟨h1, h2, h3⟩
        simp [h1]
      · simp only [List.map_cons, List.mem_cons]
        exact Or.inr (ih _ h)

theorem extractNext_write_mem (dir : String) (wOk rOk : String → Bool)
    (next : ConfigStruct) (fs : FS) (p c : String)
    (h : Event.write p c ∈ (extractNext dir wOk rOk fs next).evs) :
    ∃ g ∈ next.map Prod.fst, p = pathJoin dir g := by
  induction next generalizing fs with
  | nil => simp [extractNext] at h
  | cons hd tl ih =>
    obtain ⟨g, cf⟩ := hd
    simp only [extractNext] at h
    cases hu : (updateSecret (wOk (pathJoin dir g)) (rOk (pathJoin dir g)) fs
        (pathJoin dir g) cf.Value).2.2 with
    | some e => simp [hu] at h
    | none =>
      simp only [hu, List.mem_append] at h
      rcases h with h | h
      · cases hch : (updateSecret (wOk (pathJoin dir g)) (rOk (pathJoin dir g)) fs
            (pathJoin dir g) cf.Value).1 <;> simp [hch] at h
        exact ⟨g, by simp, h.1⟩
      · obtain ⟨g2, hg2, hp⟩ := ih _ h
        exact ⟨g2, by simp [hg2], hp⟩

theorem extractNext_frame (dir : String) (wOk rOk : String → Bool)
    (next : ConfigStruct) (fs : FS) (p : String)
    (hp : ∀ g ∈ next.map Prod.fst, p ≠ pathJoin dir g ∧ p ≠ pathJoin dir g ++ ".tmp") :
    fsFind (extractNext dir wOk rOk fs next).fs p = fsFind fs p := by
  induction next generalizing fs with
  | nil => simp [extractNext]
  | cons hd tl ih =>
    obtain ⟨f, cf⟩ := hd
    have hpf := hp f (by simp)
    have hfr := updateSecret_frame (wOk (pathJoin dir f)) (rOk (pathJoin dir f)) fs
      (pathJoin dir f) cf.Value p hpf.1 hpf.2
    simp only [extractNext]
    cases hu : (updateSecret (wOk (pathJoin dir f)) (rOk (pathJoin dir f)) fs
        (pathJoin dir f) cf.Value).2.2 with
    | some e => simpa [hu] using hfr
    | none =>
      simp only [hu]
      rw [ih _ (fun g hg => hp g (by simp [hg]))]
      exact hfr

theorem fsRead_congr (fs1 fs2 : FS) (p : String)
    (h : fsFind fs1 p = fsFind fs2 p) : fsRead fs1 p = fsRead fs2 p := by
  unfold fsRead
  rw [h]

theorem countWrites_append (a b : List Event) (p : String) :
    countWrites (a ++ b) p = countWrites a p + countWrites b p := by
  simp [countWrites, List.countP_append]

theorem countHooks_append (a b : List Event) (f : String) :
    countHooks (a ++ b) f = countHooks a f + countHooks b f := by
  simp [countHooks, List.countP_append]

theorem countHooks_cons (e : Event) (evs : List Event) (f : String) :
    countHooks (e :: evs) f = countHooks evs f +
      (if (match e with | Event.hook g _ _ => g == f | _ => false) then 1 else 0) :=
  List.countP_cons _ _ _

theorem countWrites_cons (e : Event) (evs : List Event) (p : String) :
    countWrites (e :: evs) p = countWrites evs p +
      (if (match e with | Event.write q _ => q == p | _ => false) then 1 else 0) :=
  List.countP_cons _ _ _

theorem extractNext_countWrites_zero (dir : String) (wOk rOk : String → Bool)
    (tl : ConfigStruct) (fs : FS) (p : String)
    (h : ∀ g ∈ tl.map Prod.fst, p ≠ pathJoin dir g) :
    countWrites (extractNext dir wOk rOk fs tl).evs p = 0 := by
  apply List.countP_eq_zero.mpr
  intro e he
  cases e with
  | write q c =>
    simp only [decide_eq_true_eq, beq_iff_eq]
    intro hq
    obtain ⟨g, hg, hp⟩ := extractNext_write_mem dir wOk rOk tl fs q c he
    exact h g hg (hq ▸ hp)
  | hook g q c => simp
  | remove q => simp

theorem extractNext_countHooks_zero (dir : String) (wOk rOk : String → Bool)
    (tl : ConfigStruct) (fs : FS) (f : String)
    (h : f ∉ tl.map Prod.fst) :
    countHooks (extractNext dir wOk rOk fs tl).evs f = 0 := by
  apply List.countP_eq_zero.mpr
  intro e he
  cases e with
  | write q c => simp
  | hook g q c =>
    simp only [decide_eq_true_eq, beq_iff_eq]
    intro hg
    exact h (hg ▸ extractNext_hook_mem dir wOk rOk tl fs g q c he)
  | remove q => simp

theorem extractNext_spec (dir : String) (wOk rOk : String → Bool)
    (next : ConfigStruct) (fs : FS)
    (hnd : (next.map Prod.fst).Nodup)
    (htmp : ∀ f ∈ next.map Prod.fst, ∀ g ∈ next.map Prod.fst,
      pathJoin dir f ≠ pathJoin dir g ++ ".tmp")
    (hok : (extractNext dir wOk rOk fs next).err = none) :
    ∀ fc ∈ next,
      fsRead (extractNext dir wOk rOk fs next).fs (pathJoin dir fc.1) = some fc.2.Value ∧
      (fsRead fs (pathJoin dir fc.1) ≠ some fc.2.Value →
        fsFind (extractNext dir wOk rOk fs next).fs (pathJoin dir fc.1) =
          some (fc.2.Value, secretFileMode)) ∧
      countWrites (extractNext dir wOk rOk fs next).evs (pathJoin dir fc.1) =
        (if fsRead fs (pathJoin dir fc.1) = some fc.2.Value then 0 else 1) ∧
      countHooks (extractNext dir wOk rOk fs next).evs fc.1 =
        (if fsRead fs (pathJoin dir fc.1) = some fc.2.Value then 0 else 1) := by
  induction next generalizing fs with
  | nil =>
    intro fc hfc
    simp at hfc
  | cons hd tl ih =>
    obtain ⟨f, cf⟩ := hd
    have hnd2 : f ∉ tl.map Prod.fst ∧ (tl.map Prod.fst).Nodup := by
      rw [List.map_cons, List.nodup_cons] at hnd
      exact hnd
    have hfnotin : f ∉ tl.map Prod.fst := hnd2.1
    have hndtl : (tl.map Prod.fst).Nodup := hnd2.2
    have htmptl : ∀ a ∈ tl.map Prod.fst, ∀ b ∈ tl.map Prod.fst,
        pathJoin dir a ≠ pathJoin dir b ++ ".tmp" :=
      fun a ha b hb => htmp a (by simp [ha]) b (by simp [hb])
    have hPtl : ∀ g ∈ tl.map Prod.fst,
        pathJoin dir f ≠ pathJoin dir g ∧ pathJoin dir f ≠ pathJoin dir g ++ ".tmp" := by
      intro g hg
      constructor
      · intro he
        exact hfnotin (pathJoin_inj dir f g he ▸ hg)
      · exact htmp f (by simp) g (by simp [hg])
    by_cases hcur : fsRead fs (pathJoin dir f) = some cf.Value
    · -- head entry unchanged: no write, no hook, filesystem untouched
      have hu := updateSecret_unchanged (wOk (pathJoin dir f)) (rOk (pathJoin dir f))
        fs (pathJoin dir f) cf.Value hcur
      simp only [extractNext, hu] at hok ⊢
      simp only [Bool.false_eq_true, if_false, List.nil_append] at hok ⊢
      have IH := ih fs hndtl htmptl hok
      intro fc hfc
      rcases List.mem_cons.mp hfc with heq | htl
      · subst heq
        have hframe : fsFind (extractNext dir wOk rOk fs tl).fs (pathJoin dir f) =
            fsFind fs (pathJoin dir f) :=
          extractNext_frame dir wOk rOk tl fs (pathJoin dir f) hPtl
        refine ⟨?_, ?_, ?_, ?_⟩
        · rw [fsRead_congr _ _ _ hframe]
          exact hcur
        · intro hne
          exact absurd hcur hne
        · rw [if_pos hcur]
          exact extractNext_countWrites_zero dir wOk rOk tl fs (pathJoin dir f)
            (fun g hg => (hPtl g hg).1)
        · rw [if_pos hcur]
          exact extractNext_countHooks_zero dir wOk rOk tl fs f hfnotin
      · exact IH fc htl
    · -- head entry changed: hok forces the safeWrite to succeed
      cases hu22 : (updateSecret (wOk (pathJoin dir f)) (rOk (pathJoin dir f)) fs
          (pathJoin dir f) cf.Value).2.2 with
      | some e => simp [extractNext, hu22] at hok
      | none =>
        obtain ⟨hw, hr⟩ := updateSecret_ok_flags _ _ _ _ _ hcur hu22
        have hu : updateSecret (wOk (pathJoin dir f)) (rOk (pathJoin dir f)) fs
            (pathJoin dir f) cf.Value =
            (true, fsWrite (fsErase fs (pathJoin dir f ++ ".tmp")) (pathJoin dir f)
              cf.Value secretFileMode, none) := by
          rw [hw, hr]
          exact updateSecret_changed_ok fs (pathJoin dir f) cf.Value hcur
        simp only [extractNext, hu, if_true] at hok ⊢
        have hok2 : (extractNext dir wOk rOk
            (fsWrite (fsErase fs (pathJoin dir f ++ ".tmp")) (pathJoin dir f)
              cf.Value secretFileMode) tl).err = none := hok
        have IH := ih _ hndtl htmptl hok2
        have hkeep : ∀ g ∈ tl.map Prod.fst,
            fsFind (fsWrite (fsErase fs (pathJoin dir f ++ ".tmp")) (pathJoin dir f)
              cf.Value secretFileMode) (pathJoin dir g) = fsFind fs (pathJoin dir g) := by
          intro g hg
          have hne1 : pathJoin dir g ≠ pathJoin dir f := by
            intro he
            apply hfnotin
            rw [pathJoin_inj dir f g he.symm]
            exact hg
          rw [fsFind_write_ne _ _ _ _ _ hne1]
          exact fsFind_erase_ne _ _ _ (htmp g (by simp [hg]) f (by simp))
        intro fc hfc
        rcases List.mem_cons.mp hfc with heq | htl
        · subst heq
          have hframe : fsFind (extractNext dir wOk rOk
              (fsWrite (fsErase fs (pathJoin dir f ++ ".tmp")) (pathJoin dir f)
                cf.Value secretFileMode) tl).fs (pathJoin dir f) =
              fsFind (fsWrite (fsErase fs (pathJoin dir f ++ ".tmp")) (pathJoin dir f)
                cf.Value secretFileMode) (pathJoin dir f) :=
            extractNext_frame dir wOk rOk tl _ (pathJoin dir f) hPtl
          have hself : fsFind (fsWrite (fsErase fs (pathJoin dir f ++ ".tmp"))
              (pathJoin dir f) cf.Value secretFileMode) (pathJoin dir f) =
              some (cf.Value, secretFileMode) := fsFind_write_self _ _ _ _
          refine ⟨?_, ?_, ?_, ?_⟩
          · rw [fsRead_congr _ _ _ hframe]
            unfold fsRead
            rw [hself]
            rfl
          · intro _
            rw [hframe, hself]
          · rw [if_neg hcur, countWrites_append]
            rw [extractNext_countWrites_zero dir wOk rOk tl _ (pathJoin dir f)
              (fun g hg => (hPtl g hg).1)]
            simp [countWrites, List.countP_cons]
          · rw [if_neg hcur, countHooks_append]
            rw [extractNext_countHooks_zero dir wOk rOk tl _ f hfnotin]
            simp [countHooks, List.countP_cons]
        · have hgkey : fc.1 ∈ tl.map Prod.fst := List.mem_map_of_mem Prod.fst htl
          have hcond : fsRead (fsWrite (fsErase fs (pathJoin dir f ++ ".tmp"))
              (pathJoin dir f) cf.Value secretFileMode) (pathJoin dir fc.1) =
              fsRead fs (pathJoin dir fc.1) := fsRead_congr _ _ _ (hkeep fc.1 hgkey)
          have hne2 : pathJoin dir f ≠ pathJoin dir fc.1 := by
            intro he
            apply hfnotin
            rw [pathJoin_inj dir f fc.1 he]
            exact hgkey
          obtain ⟨ihA, ihB, ihC, ihD⟩ := IH fc htl
          rw [hcond] at ihB ihC ihD
          refine ⟨ihA, ihB, ?_, ?_⟩
          · rw [countWrites_append, ihC]
            simp [countWrites, List.countP_cons, hne2]
          · rw [countHooks_append, ihD]
            have hne3 : f ≠ fc.1 := by
              intro he
              exact hfnotin (he ▸ hgkey)
            simp [countHooks, List.countP_cons, hne3]

theorem extractPrev_no_write (dir : String) (remOk : String → Bool)
    (allF : List String) (prevL : ConfigStruct) (fs : FS) (p c : String) :
    Event.write p c ∉ (extractPrev dir remOk allF fs prevL).evs := by
  induction prevL generalizing fs with
  | nil => simp [extractPrev]
  | cons hd tl ih =>
    obtain ⟨f, cf⟩ := hd
    simp only [extractPrev]
    by_cases hmem : f ∈ allF
    · rw [if_pos hmem]
      exact ih fs
    · rw [if_neg hmem]
      by_cases hex : (fsRead fs (pathJoin dir f)).isSome
      · rw [if_pos hex]
        cases hrm : remOk (pathJoin dir f) with
        | false => simp [hrm]
        | true =>
          simp only [hrm, if_true, List.mem_cons]
          rintro (h | h | h)
          · exact Event.noConfusion h
          · exact Event.noConfusion h
          · exact ih _ h
      · rw [if_neg hex]
        simp only [List.mem_cons]
        rintro (h | h)
        · exact Event.noConfusion h
        · exact ih _ h

theorem extractPrev_hook_mem (dir : String) (remOk : String → Bool)
    (allF : List String) (prevL : ConfigStruct) (fs : FS) (f p : String)
    (c : List String)
    (h : Event.hook f p c ∈ (extractPrev dir remOk allF fs prevL).evs) :
    f ∈ prevL.map Prod.fst ∧ f ∉ allF := by
  induction prevL generalizing fs with
  | nil => simp [extractPrev] at h
  | cons hd tl ih =>
    obtain ⟨g, cf⟩ := hd
    simp only [extractPrev] at h
    by_cases hmem : g ∈ allF
    · rw [if_pos hmem] at h
      obtain ⟨h1, h2⟩ := ih fs h
      exact ⟨by simp [h1], h2⟩
    · rw [if_neg hmem] at h
      by_cases hex : (fsRead fs (pathJoin dir g)).isSome
      · rw [if_pos hex] at h
        cases hrm : remOk (pathJoin dir g) with
        | false => simp [hrm] at h
        | true =>
          simp only [hrm, if_true, List.mem_cons] at h
          rcases h with h | h | h
          · exact Event.noConfusion h
          · obtain ⟨h1, h2, h3⟩ := Event.hook.inj h
            subst h1
            exact ⟨by simp, hmem⟩
          · obtain ⟨h1, h2⟩ := ih _ h
            exact ⟨by simp [h1], h2⟩
      · rw [if_neg hex] at h
        simp only [List.mem_cons] at h
        rcases h with h | h
        · obtain ⟨h1, h2, h3⟩ := Event.hook.inj h
          subst h1
          exact ⟨by simp, hmem⟩
        · obtain ⟨h1, h2⟩ := ih _ h
          exact ⟨by simp [h1], h2⟩

theorem extractPrev_remove_mem (dir : String) (remOk : String → Bool)
    (allF : List String) (prevL : ConfigStruct) (fs : FS) (p : String)
    (h : Event.remove p ∈ (extractPrev dir remOk allF fs prevL).evs) :
    ∃ g ∈ prevL.map Prod.fst, g ∉ allF ∧ p = pathJoin dir g := by
  induction prevL generalizing fs with
  | nil => simp [extractPrev] at h
  | cons hd tl ih =>
    obtain ⟨g, cf⟩ := hd
    simp only [extractPrev] at h
    by_cases hmem : g ∈ allF
    · rw [if_pos hmem] at h
      obtain ⟨g2, h1, h2, h3⟩ := ih fs h
      exact ⟨g2, by simp [h1], h2, h3⟩
    · rw [if_neg hmem] at h
      by_cases hex : (fsRead fs (pathJoin dir g)).isSome
      · rw [if_pos hex] at h
        cases hrm : remOk (pathJoin dir g) with
        | false => simp [hrm] at h
        | true =>
          simp only [hrm, if_true, List.mem_cons] at h
          rcases h with h | h | h
          · exact ⟨g, by simp, hmem, Event.remove.inj h⟩
          · exact Event.noConfusion h
          · obtain ⟨g2, h1, h2, h3⟩ := ih _ h
            exact ⟨g2, by simp [h1], h2, h3⟩
      · rw [if_neg hex] at h
        simp only [List.mem_cons] at h
        rcases h with h | h
        · exact Event.noConfusion h
        · obtain ⟨g2, h1, h2, h3⟩ := ih _ h
          exact ⟨g2, by simp [h1], h2, h3⟩

theorem extractPrev_frame (dir : String) (remOk : String → Bool)
    (allF : List String) (prevL : ConfigStruct) (fs : FS) (p : String)
    (hp : ∀ g ∈ prevL.map Prod.fst, g ∉ allF → p ≠ pathJoin dir g) :
    fsFind (extractPrev dir remOk allF fs prevL).fs p = fsFind fs p := by
  induction prevL generalizing fs with
  | nil => simp [extractPrev]
  | cons hd tl ih =>
    obtain ⟨g, cf⟩ := hd
    have hptl : ∀ a ∈ tl.map Prod.fst, a ∉ allF → p ≠ pathJoin dir a :=
      fun a ha => hp a (by simp [ha])
    simp only [extractPrev]
    by_cases hmem : g ∈ allF
    · rw [if_pos hmem]
      exact ih fs hptl
    · rw [if_neg hmem]
      by_cases hex : (fsRead fs (pathJoin dir g)).isSome
      · rw [if_pos hex]
        cases hrm : remOk (pathJoin dir g) with
        | false => simp [hrm]
        | true =>
          simp only [hrm, if_true]
          rw [ih _ hptl]
          exact fsFind_erase_ne _ _ _ (hp g (by simp) hmem)
      · rw [if_neg hex]
        exact ih fs hptl

theorem extractPrev_mono (dir : String) (remOk : String → Bool)
    (allF : List String) (prevL : ConfigStruct) (fs : FS) (p : String) :
    fsFind (extractPrev dir remOk allF fs prevL).fs p = fsFind fs p ∨
    fsFind (extractPrev dir remOk allF fs prevL).fs p = none := by
  induction prevL generalizing fs with
  | nil => left; simp [extractPrev]
  | cons hd tl ih =>
    obtain ⟨g, cf⟩ := hd
    simp only [extractPrev]
    by_cases hmem : g ∈ allF
    · rw [if_pos hmem]
      exact ih fs
    · rw [if_neg hmem]
      by_cases hex : (fsRead fs (pathJoin dir g)).isSome
      · rw [if_pos hex]
        cases hrm : remOk (pathJoin dir g) with
        | false => simp [hrm]
        | true =>
          simp only [hrm, if_true]
          rcases ih (fsErase fs (pathJoin dir g)) with h | h
          · by_cases hpq : p = pathJoin dir g
            · right
              rw [h, hpq]
              exact fsFind_erase_self _ _
            · left
              rw [h]
              exact fsFind_erase_ne _ _ _ hpq
          · right
            exact h
      · rw [if_neg hex]
        exact ih fs

theorem extractPrev_countWrites_zero (dir : String) (remOk : String → Bool)
    (allF : List String) (prevL : ConfigStruct) (fs : FS) (p : String) :
    countWrites (extractPrev dir remOk allF fs prevL).evs p = 0 := by
  apply List.countP_eq_zero.mpr
  intro e he
  cases e with
  | write q c => exact absurd he (extractPrev_no_write dir remOk allF prevL fs q c)
  | hook g q c => simp
  | remove q => simp

theorem extractPrev_countHooks_zero (dir : String) (remOk : String → Bool)
    (allF : List String) (prevL : ConfigStruct) (fs : FS) (f : String)
    (h : f ∈ allF) :
    countHooks (extractPrev dir remOk allF fs prevL).evs f = 0 := by
  apply List.countP_eq_zero.mpr
  intro e he
  cases e with
  | write q c => simp
  | hook g q c =>
    simp only [decide_eq_true_eq, beq_iff_eq]
    intro hg
    exact (extractPrev_hook_mem dir remOk allF prevL fs g q c he).2 (hg ▸ h)
  | remove q => simp

theorem extractPrev_spec (dir : String) (remOk : String → Bool)
    (allF : List String) (prevL : ConfigStruct) (fs : FS)
    (hnd : (prevL.map Prod.fst).Nodup)
    (hok : (extractPrev dir remOk allF fs prevL).err = none) :
    ∀ fc ∈ prevL, fc.1 ∉ allF →
      fsRead (extractPrev dir remOk allF fs prevL).fs (pathJoin dir fc.1) = none ∧
      countHooks (extractPrev dir remOk allF fs prevL).evs fc.1 = 1 := by
  induction prevL generalizing fs with
  | nil =>
    intro fc hfc
    simp at hfc
  | cons hd tl ih =>
    obtain ⟨f, cf⟩ := hd
    have hnd2 : f ∉ tl.map Prod.fst ∧ (tl.map Prod.fst).Nodup := by
      rw [List.map_cons, List.nodup_cons] at hnd
      exact hnd
    simp only [extractPrev] at hok ⊢
    by_cases hmem : f ∈ allF
    · rw [if_pos hmem] at hok ⊢
      intro fc hfc hfcF
      rcases List.mem_cons.mp hfc with heq | htl
      · subst heq
        exact absurd hmem hfcF
      · exact ih fs hnd2.2 hok fc htl hfcF
    · rw [if_neg hmem] at hok ⊢
      by_cases hex : (fsRead fs (pathJoin dir f)).isSome
      · rw [if_pos hex] at hok ⊢
        cases hrm : remOk (pathJoin dir f) with
        | false => simp [hrm] at hok
        | true =>
          simp only [hrm, if_true] at hok ⊢
          intro fc hfc hfcF
          rcases List.mem_cons.mp hfc with heq | htl
          · subst heq
            constructor
            · rcases extractPrev_mono dir remOk allF tl
                  (fsErase fs (pathJoin dir f)) (pathJoin dir f) with h | h
              · rw [fsRead_congr _ _ _ h, fsRead_eq_none_iff]
                exact fsFind_erase_self _ _
              · rw [fsRead_eq_none_iff]
                exact h
            · have h0 : countHooks (extractPrev dir remOk allF
                  (fsErase fs (pathJoin dir f)) tl).evs f = 0 := by
                apply List.countP_eq_zero.mpr
                intro e he
                cases e with
                | write q c => simp
                | hook g q c =>
                  simp only [decide_eq_true_eq, beq_iff_eq]
                  intro hg
                  exact hnd2.1 (hg ▸ (extractPrev_hook_mem dir remOk allF tl _ g q c he).1)
                | remove q => simp
              rw [countHooks_cons, countHooks_cons, h0]
              simp
          · have hIH := ih _ hnd2.2 hok fc htl hfcF
            have hne : f ≠ fc.1 := by
              intro he
              apply hnd2.1
              rw [he]
              exact List.mem_map_of_mem Prod.fst htl
            refine ⟨hIH.1, ?_⟩
            show countHooks (Event.remove (pathJoin dir f) ::
                Event.hook f (pathJoin dir f) cf.OnChanged ::
                (extractPrev dir remOk allF (fsErase fs (pathJoin dir f)) tl).evs) fc.1 = 1
            rw [countHooks_cons, countHooks_cons, hIH.2]
            simp [hne]
      · rw [if_neg hex] at hok ⊢
        intro fc hfc hfcF
        rcases List.mem_cons.mp hfc with heq | htl
        · subst heq
          constructor
          · rcases extractPrev_mono dir remOk allF tl fs (pathJoin dir f) with h | h
            · rw [fsRead_congr _ _ _ h, fsRead_eq_none_iff]
              rw [← fsRead_eq_none_iff]
              exact Option.not_isSome_iff_eq_none.mp hex
            · rw [fsRead_eq_none_iff]
              exact h
          · have h0 : countHooks (extractPrev dir remOk allF fs tl).evs f = 0 := by
              apply List.countP_eq_zero.mpr
              intro e he
              cases e with
              | write q c => simp
              | hook g q c =>
                simp only [decide_eq_true_eq, beq_iff_eq]
                intro hg
                exact hnd2.1 (hg ▸ (extractPrev_hook_mem dir remOk allF tl _ g q c he).1)
              | remove q => simp
            rw [countHooks_cons, h0]
            simp
        · have hIH := ih fs hnd2.2 hok fc htl hfcF
          have hne : f ≠ fc.1 := by
            intro he
            apply hnd2.1
            rw [he]
            exact List.mem_map_of_mem Prod.fst htl
          refine ⟨hIH.1, ?_⟩
          show countHooks (Event.hook f (pathJoin dir f) cf.OnChanged ::
              (extractPrev dir remOk allF fs tl).evs) fc.1 = 1
          rw [countHooks_cons, hIH.2]
          simp [hne]

theorem extractNext_id_of_unchanged (dir : String) (wOk rOk : String → Bool)
    (next : ConfigStruct) (fs : FS)
    (h : ∀ fc ∈ next, fsRead fs (pathJoin dir fc.1) = some fc.2.Value) :
    extractNext dir wOk rOk fs next = ⟨fs, [], none⟩ := by
  induction next generalizing fs with
  | nil => rfl
  | cons hd tl ih =>
    obtain ⟨f, cf⟩ := hd
    have hu := updateSecret_unchanged (wOk (pathJoin dir f)) (rOk (pathJoin dir f)) fs
      (pathJoin dir f) cf.Value (h (f, cf) (by simp))
    simp only [extractNext, hu]
    rw [ih fs (fun fc hfc => h fc (by simp [hfc]))]
    simp

theorem extractPrev_id_of_all_mem (dir : String) (remOk : String → Bool)
    (allF : List String) (prevL : ConfigStruct) (fs : FS)
    (h : ∀ fc ∈ prevL, fc.1 ∈ allF) :
    extractPrev dir remOk allF fs prevL = ⟨fs, [], none⟩ := by
  induction prevL generalizing fs with
  | nil => rfl
  | cons hd tl ih =>
    obtain ⟨f, cf⟩ := hd
    simp only [extractPrev]
    rw [if_pos (h (f, cf) (by simp))]
    exact ih fs (fun fc hfc => h fc (by simp [hfc]))

/-- C1 counterexample: the claim as stated is false on the code. With
the secrets directory holding the file a.tmp with content y, and next
holding the entries a (content x) and a.tmp (content y, equal to the
on-disk content), a successful extract still rewrites a.tmp and runs
its hook: materializing the entry a uses the sibling temporary path
s/a.tmp, which clobbers the file of the unchanged entry a.tmp before
that entry is compared. -/
theorem c1_counterexample :
    (extract "s" true (fun _ => true) (fun _ => true) (fun _ => true)
        [("s/a.tmp", "y", 416)]
        ⟨some [], [("a", ⟨"x", []⟩), ("a.tmp", ⟨"y", []⟩)]⟩).err = none ∧
    fsRead [("s/a.tmp", "y", 416)] (pathJoin "s" "a.tmp") = some "y" ∧
    countWrites (extract "s" true (fun _ => true) (fun _ => true) (fun _ => true)
        [("s/a.tmp", "y", 416)]
        ⟨some [], [("a", ⟨"x", []⟩), ("a.tmp", ⟨"y", []⟩)]⟩).evs
      (pathJoin "s" "a.tmp") = 1 ∧
    countHooks (extract "s" true (fun _ => true) (fun _ => true) (fun _ => true)
        [("s/a.tmp", "y", 416)]
        ⟨some [], [("a", ⟨"x", []⟩), ("a.tmp", ⟨"y", []⟩)]⟩).evs "a.tmp" = 1 := by
  decide

/-- C1 (amended): under the additional hypothesis that no target path
of a next entry equals another next-entry target path with the .tmp
suffix (ruling out the temporary-path collision of the
counterexample), a successful extract with prev present removes every
prev-only file and runs its hook exactly once, rewrites exactly once
and hooks exactly once every next entry whose value differs from the
pre-run on-disk content, and leaves untouched (no write, no hook)
every next entry whose value equals the pre-run content; with prev
absent the removal phase never runs, so no removal event happens. -/
theorem c1_diff_materialize (dir : String) (wOk rOk remOk : String → Bool)
    (fs : FS) (prevL nextL : ConfigStruct)
    (hndN : (nextL.map Prod.fst).Nodup) (hndP : (prevL.map Prod.fst).Nodup)
    (htmp : ∀ f ∈ nextL.map Prod.fst, ∀ g ∈ nextL.map Prod.fst,
      pathJoin dir f ≠ pathJoin dir g ++ ".tmp")
    (hok : (extract dir true wOk rOk remOk fs ⟨some prevL, nextL⟩).err = none) :
    (∀ fc ∈ prevL, fc.1 ∉ nextL.map Prod.fst →
      fsRead (extract dir true wOk rOk remOk fs ⟨some prevL, nextL⟩).fs
        (pathJoin dir fc.1) = none ∧
      countHooks (extract dir true wOk rOk remOk fs ⟨some prevL, nextL⟩).evs fc.1 = 1) ∧
    (∀ fc ∈ nextL, fsRead fs (pathJoin dir fc.1) ≠ some fc.2.Value →
      countWrites (extract dir true wOk rOk remOk fs ⟨some prevL, nextL⟩).evs
        (pathJoin dir fc.1) = 1 ∧
      countHooks (extract dir true wOk rOk remOk fs ⟨some prevL, nextL⟩).evs fc.1 = 1) ∧
    (∀ fc ∈ nextL, fsRead fs (pathJoin dir fc.1) = some fc.2.Value →
      countWrites (extract dir true wOk rOk remOk fs ⟨some prevL, nextL⟩).evs
        (pathJoin dir fc.1) = 0 ∧
      countHooks (extract dir true wOk rOk remOk fs ⟨some prevL, nextL⟩).evs fc.1 = 0) ∧
    (∀ p, Event.remove p ∉
      (extract dir true wOk rOk remOk fs ⟨none, nextL⟩).evs) := by
  cases hrn : (extractNext dir wOk rOk fs nextL).err with
  | some e => simp [extract, hrn] at hok
  | none =>
    have hE : extract dir true wOk rOk remOk fs ⟨some prevL, nextL⟩ =
        ⟨(extractPrev dir remOk (nextL.map Prod.fst)
            (extractNext dir wOk rOk fs nextL).fs prevL).fs,
          (extractNext dir wOk rOk fs nextL).evs ++
            (extractPrev dir remOk (nextL.map Prod.fst)
              (extractNext dir wOk rOk fs nextL).fs prevL).evs,
          (extractPrev dir remOk (nextL.map Prod.fst)
            (extractNext dir wOk rOk fs nextL).fs prevL).err⟩ := by
      simp [extract, hrn]
    rw [hE] at hok ⊢
    have hok2 : (extractPrev dir remOk (nextL.map Prod.fst)
        (extractNext dir wOk rOk fs nextL).fs prevL).err = none := hok
    refine ⟨?_, ?_, ?_, ?_⟩
    · intro fc hfc hnotin
      have hspec := extractPrev_spec dir remOk (nextL.map Prod.fst) prevL
        (extractNext dir wOk rOk fs nextL).fs hndP hok2 fc hfc hnotin
      refine ⟨hspec.1, ?_⟩
      rw [countHooks_append,
        extractNext_countHooks_zero dir wOk rOk nextL fs fc.1 hnotin, hspec.2]
    · intro fc hfc hchanged
      obtain ⟨_, _, hC, hD⟩ := extractNext_spec dir wOk rOk nextL fs hndN htmp hrn fc hfc
      constructor
      · rw [countWrites_append, extractPrev_countWrites_zero, hC, if_neg hchanged]
      · rw [countHooks_append,
          extractPrev_countHooks_zero dir remOk (nextL.map Prod.fst) prevL _ fc.1
            (List.mem_map_of_mem Prod.fst hfc),
          hD, if_neg hchanged]
    · intro fc hfc hsame
      obtain ⟨_, _, hC, hD⟩ := extractNext_spec dir wOk rOk nextL fs hndN htmp hrn fc hfc
      constructor
      · rw [countWrites_append, extractPrev_countWrites_zero, hC, if_pos hsame]
      · rw [countHooks_append,
          extractPrev_countHooks_zero dir remOk (nextL.map Prod.fst) prevL _ fc.1
            (List.mem_map_of_mem Prod.fst hfc),
          hD, if_pos hsame]
    · intro p
      have hE2 : extract dir true wOk rOk remOk fs ⟨none, nextL⟩ =
          extractNext dir wOk rOk fs nextL := by
        simp [extract, hrn]
      rw [hE2]
      exact extractNext_remove_not_mem dir wOk rOk nextL fs p

/-- C1 witness: a prev-only file c is removed and its hook runs once
at a concrete input satisfying the amended hypotheses. -/
theorem c1_diff_materialize_witness :
    fsRead (extract "s" true (fun _ => true) (fun _ => true) (fun _ => true) []
        ⟨some [("c", ConfigFile.mk "z" ["h"])], [("a", ConfigFile.mk "x" ["k"])]⟩).fs
      (pathJoin "s" "c") = none ∧
    countHooks (extract "s" true (fun _ => true) (fun _ => true) (fun _ => true) []
        ⟨some [("c", ConfigFile.mk "z" ["h"])], [("a", ConfigFile.mk "x" ["k"])]⟩).evs
      "c" = 1 :=
  (c1_diff_materialize "s" (fun _ => true) (fun _ => true) (fun _ => true) []
      [("c", ConfigFile.mk "z" ["h"])] [("a", ConfigFile.mk "x" ["k"])]
      (by decide) (by decide) (by decide) (by decide)).1
    ("c", ConfigFile.mk "z" ["h"]) (by decide) (by decide)

/-- C2 counterexample: the claim as stated is false on the code. The
bundle holding a.tmp (content y) and then a (content x), applied to an
empty directory, succeeds; but materializing a rewrites the sibling
temporary path s/a.tmp and renames it away, destroying the just
written file of the entry a.tmp, so the second application of the
same bundle performs a write and runs a hook again. -/
theorem c2_counterexample :
    (extract "s" true (fun _ => true) (fun _ => true) (fun _ => true) []
        ⟨none, [("a.tmp", ⟨"y", []⟩), ("a", ⟨"x", []⟩)]⟩).err = none ∧
    countWrites (extract "s" true (fun _ => true) (fun _ => true) (fun _ => true)
        (extract "s" true (fun _ => true) (fun _ => true) (fun _ => true) []
          ⟨none, [("a.tmp", ⟨"y", []⟩), ("a", ⟨"x", []⟩)]⟩).fs
        ⟨some [("a.tmp", ⟨"y", []⟩), ("a", ⟨"x", []⟩)],
          [("a.tmp", ⟨"y", []⟩), ("a", ⟨"x", []⟩)]⟩).evs
      (pathJoin "s" "a.tmp") = 1 ∧
    countHooks (extract "s" true (fun _ => true) (fun _ => true) (fun _ => true)
        (extract "s" true (fun _ => true) (fun _ => true) (fun _ => true) []
          ⟨none, [("a.tmp", ⟨"y", []⟩), ("a", ⟨"x", []⟩)]⟩).fs
        ⟨some [("a.tmp", ⟨"y", []⟩), ("a", ⟨"x", []⟩)],
          [("a.tmp", ⟨"y", []⟩), ("a", ⟨"x", []⟩)]⟩).evs "a.tmp" = 1 := by
  decide

/-- C2 (amended): under the additional hypothesis that no target path
of a bundle entry equals another entry target path with the .tmp
suffix, a second application of the same bundle, with the first
application result as prev snapshot and on-disk state, is a complete
no-op: no writes, no hooks, no removals, no error, filesystem
unchanged. -/
theorem c2_idempotent (dir : String) (wOk rOk remOk wOk2 rOk2 remOk2 : String → Bool)
    (fs : FS) (prevO : Option ConfigStruct) (B : ConfigStruct)
    (hnd : (B.map Prod.fst).Nodup)
    (htmp : ∀ f ∈ B.map Prod.fst, ∀ g ∈ B.map Prod.fst,
      pathJoin dir f ≠ pathJoin dir g ++ ".tmp")
    (hok : (extract dir true wOk rOk remOk fs ⟨prevO, B⟩).err = none) :
    extract dir true wOk2 rOk2 remOk2
        (extract dir true wOk rOk remOk fs ⟨prevO, B⟩).fs ⟨some B, B⟩ =
      ⟨(extract dir true wOk rOk remOk fs ⟨prevO, B⟩).fs, [], none⟩ := by
  cases hrn : (extractNext dir wOk rOk fs B).err with
  | some e =>
    cases prevO <;> simp [extract, hrn] at hok
  | none =>
    have hspec := extractNext_spec dir wOk rOk B fs hnd htmp hrn
    have hcontent : ∀ fc ∈ B,
        fsRead (extract dir true wOk rOk remOk fs ⟨prevO, B⟩).fs
          (pathJoin dir fc.1) = some fc.2.Value := by
      cases prevO with
      | none =>
        have hE : extract dir true wOk rOk remOk fs ⟨none, B⟩ =
            extractNext dir wOk rOk fs B := by
          simp [extract, hrn]
        rw [hE]
        intro fc hfc
        exact (hspec fc hfc).1
      | some pl =>
        have hE : extract dir true wOk rOk remOk fs ⟨some pl, B⟩ =
            ⟨(extractPrev dir remOk (B.map Prod.fst)
                (extractNext dir wOk rOk fs B).fs pl).fs,
              (extractNext dir wOk rOk fs B).evs ++
                (extractPrev dir remOk (B.map Prod.fst)
                  (extractNext dir wOk rOk fs B).fs pl).evs,
              (extractPrev dir remOk (B.map Prod.fst)
                (extractNext dir wOk rOk fs B).fs pl).err⟩ := by
          simp [extract, hrn]
        rw [hE]
        intro fc hfc
        have hfr : fsFind (extractPrev dir remOk (B.map Prod.fst)
            (extractNext dir wOk rOk fs B).fs pl).fs (pathJoin dir fc.1) =
            fsFind (extractNext dir wOk rOk fs B).fs (pathJoin dir fc.1) := by
          apply extractPrev_frame
          intro g hg hgF he
          apply hgF
          rw [← pathJoin_inj dir fc.1 g he]
          exact List.mem_map_of_mem Prod.fst hfc
        rw [fsRead_congr _ _ _ hfr]
        exact (hspec fc hfc).1
    have h2n := extractNext_id_of_unchanged dir wOk2 rOk2 B
      (extract dir true wOk rOk remOk fs ⟨prevO, B⟩).fs hcontent
    have h2p := extractPrev_id_of_all_mem dir remOk2 (B.map Prod.fst) B
      (extract dir true wOk rOk remOk fs ⟨prevO, B⟩).fs
      (fun fc hfc => List.mem_map_of_mem Prod.fst hfc)
    generalize hfs1 : (extract dir true wOk rOk remOk fs ⟨prevO, B⟩).fs = fs1 at h2n h2p ⊢
    simp [extract, h2n, h2p]

/-- C2 witness: a one-entry bundle applied twice, second application
is the no-op result. -/
theorem c2_idempotent_witness :
    extract "s" true (fun _ => true) (fun _ => true) (fun _ => true)
        (extract "s" true (fun _ => true) (fun _ => true) (fun _ => true) []
          ⟨none, [("a", ConfigFile.mk "x" ["h"])]⟩).fs
        ⟨some [("a", ConfigFile.mk "x" ["h"])], [("a", ConfigFile.mk "x" ["h"])]⟩ =
      ⟨(extract "s" true (fun _ => true) (fun _ => true) (fun _ => true) []
          ⟨none, [("a", ConfigFile.mk "x" ["h"])]⟩).fs, [], none⟩ :=
  c2_idempotent "s" (fun _ => true) (fun _ => true) (fun _ => true)
    (fun _ => true) (fun _ => true) (fun _ => true) [] none
    [("a", ConfigFile.mk "x" ["h"])] (by decide) (by decide) (by decide)

/-- C6: the events of any extract run split into a write-phase part
with no removal events followed by a removal-phase part with no write
events, and a file name present in next is never the subject of a
removal event anywhere in the run, whether or not prev contains it. -/
theorem c6_writes_before_removals (dir : String) (dirExists : Bool)
    (wOk rOk remOk : String → Bool) (fs : FS) (config : configSnapshot)
    (f : String) (hf : f ∈ config.next.map Prod.fst) :
    (∃ evsN evsP,
        (extract dir dirExists wOk rOk remOk fs config).evs = evsN ++ evsP ∧
        (∀ p, Event.remove p ∉ evsN) ∧
        (∀ p c, Event.write p c ∉ evsP)) ∧
    Event.remove (pathJoin dir f) ∉
      (extract dir dirExists wOk rOk remOk fs config).evs := by
  cases dirExists with
  | false =>
    exact ⟨⟨[], [], by simp [extract], by simp, by simp⟩, by simp [extract]⟩
  | true =>
    cases hrn : (extractNext dir wOk rOk fs config.next).err with
    | some e =>
      have hE : extract dir true wOk rOk remOk fs config =
          extractNext dir wOk rOk fs config.next := by
        simp [extract, hrn]
      rw [hE]
      exact ⟨⟨(extractNext dir wOk rOk fs config.next).evs, [],
          (List.append_nil _).symm,
          fun p => extractNext_remove_not_mem dir wOk rOk config.next fs p,
          fun p c => by simp⟩,
        extractNext_remove_not_mem dir wOk rOk config.next fs (pathJoin dir f)⟩
    | none =>
      cases hprev : config.prev with
      | none =>
        have hE : extract dir true wOk rOk remOk fs config =
            extractNext dir wOk rOk fs config.next := by
          simp [extract, hrn, hprev]
        rw [hE]
        exact ⟨⟨(extractNext dir wOk rOk fs config.next).evs, [],
            (List.append_nil _).symm,
            fun p => extractNext_remove_not_mem dir wOk rOk config.next fs p,
            fun p c => by simp⟩,
          extractNext_remove_not_mem dir wOk rOk config.next fs (pathJoin dir f)⟩
      | some prevL =>
        have hE : extract dir true wOk rOk remOk fs config =
            ⟨(extractPrev dir remOk (config.next.map Prod.fst)
                (extractNext dir wOk rOk fs config.next).fs prevL).fs,
              (extractNext dir wOk rOk fs config.next).evs ++
                (extractPrev dir remOk (config.next.map Prod.fst)
                  (extractNext dir wOk rOk fs config.next).fs prevL).evs,
              (extractPrev dir remOk (config.next.map Prod.fst)
                (extractNext dir wOk rOk fs config.next).fs prevL).err⟩ := by
          simp [extract, hrn, hprev]
        rw [hE]
        refine ⟨⟨(extractNext dir wOk rOk fs config.next).evs,
            (extractPrev dir remOk (config.next.map Prod.fst)
              (extractNext dir wOk rOk fs config.next).fs prevL).evs, rfl,
            fun p => extractNext_remove_not_mem dir wOk rOk config.next fs p,
            fun p c => extractPrev_no_write dir remOk (config.next.map Prod.fst)
              prevL _ p c⟩, ?_⟩
        intro hmem
        rcases List.mem_append.mp hmem with h | h
        · exact extractNext_remove_not_mem dir wOk rOk config.next fs
            (pathJoin dir f) h
        · obtain ⟨g, hg, hgF, hpe⟩ := extractPrev_remove_mem dir remOk
            (config.next.map Prod.fst) prevL _ (pathJoin dir f) h
          apply hgF
          rw [← pathJoin_inj dir f g hpe]
          exact hf

/-- C6 witness: a concrete run where the file a is in next (and also
in prev) and is never removed. -/
theorem c6_writes_before_removals_witness :
    (∃ evsN evsP,
        (extract "s" true (fun _ => true) (fun _ => true) (fun _ => true)
          [("s/a", "v", 416)]
          ⟨some [("a", ConfigFile.mk "x" [])], [("a", ConfigFile.mk "x" [])]⟩).evs =
          evsN ++ evsP ∧
        (∀ p, Event.remove p ∉ evsN) ∧
        (∀ p c, Event.write p c ∉ evsP)) ∧
    Event.remove (pathJoin "s" "a") ∉
      (extract "s" true (fun _ => true) (fun _ => true) (fun _ => true)
        [("s/a", "v", 416)]
        ⟨some [("a", ConfigFile.mk "x" [])], [("a", ConfigFile.mk "x" [])]⟩).evs :=
  c6_writes_before_removals "s" true (fun _ => true) (fun _ => true) (fun _ => true)
    [("s/a", "v", 416)]
    ⟨some [("a", ConfigFile.mk "x" [])], [("a", ConfigFile.mk "x" [])]⟩ "a" (by decide)

end Fioconfig
